import Mathlib

/-!
Verification of the uma-bingo coupon-collector simulator (src/main.rs).

The program draws one of 8 prizes per loop iteration — uniformly at random
while fewer than 25 draws have been made, and deterministically the
lowest-indexed unearned prize afterwards — until all 8 prizes are earned.
`main` runs a batch of such trials and aggregates the trial lengths into a
mean and a histogram.

The random source (`rand::rng()` / `random_range(0..8)`) is modelled as a
stream `Nat → Fin 8` giving the index produced on each random draw; the
stream index is the current length of the result sequence (one random draw
is consumed per iteration while the length is below 25).  The unbounded
`while` loop is modelled with explicit fuel; we prove 33 units of fuel
always suffice, so the fuel-exhaustion branch never fires.  The `unwrap`
calls in the source are modelled as `Option`/`Except` error branches and
proved unreachable.  The `f32` mean is modelled in `ℚ` (the identity
claims proved about it compare the very same division both ways).
-/

/-- The 8 prize outcomes (enum `RollResult` in src/main.rs, lines 9–19). -/
inductive RollResult where
  | FirstPrize
  | SecondPrize
  | ThirdPrize
  | FourthPrize
  | FifthPrize
  | SixthPrize
  | SeventhPrize
  | EighthPrize
  deriving DecidableEq

/-- `impl TryFrom<usize> for RollResult` (src/main.rs, lines 21–37):
indices 0–7 map to the eight prizes, anything else is the error string. -/
def tryFromUsize : Nat → Except String RollResult
  | 0 => Except.ok RollResult.FirstPrize
  | 1 => Except.ok RollResult.SecondPrize
  | 2 => Except.ok RollResult.ThirdPrize
  | 3 => Except.ok RollResult.FourthPrize
  | 4 => Except.ok RollResult.FifthPrize
  | 5 => Except.ok RollResult.SixthPrize
  | 6 => Except.ok RollResult.SeventhPrize
  | 7 => Except.ok RollResult.EighthPrize
  | _ + 8 => Except.error "Can only convert 0..=7 to RollResult"

/-- `impl From<&RollResult> for usize` (src/main.rs, lines 39–52). -/
def usizeFrom : RollResult → Nat
  | RollResult.FirstPrize => 0
  | RollResult.SecondPrize => 1
  | RollResult.ThirdPrize => 2
  | RollResult.FourthPrize => 3
  | RollResult.FifthPrize => 4
  | RollResult.SixthPrize => 5
  | RollResult.SeventhPrize => 6
  | RollResult.EighthPrize => 7

/-- `Distribution<RollResult> for StandardUniform` (src/main.rs, lines 54–58):
`rng.random_range(0..8).try_into().unwrap()`.  The argument is the index the
random source produced (in `[0,8)` by the `random_range` contract); the
`unwrap` failure is modelled as `none`. -/
def sampleRoll (k : Fin 8) : Option RollResult := (tryFromUsize k.val).toOption

/-- The successful value of `tryFromUsize` on an in-range index; used only in
theorem statements to name the outcome a given index produces. -/
def indexToRoll : Fin 8 → RollResult
  | ⟨0, _⟩ => RollResult.FirstPrize
  | ⟨1, _⟩ => RollResult.SecondPrize
  | ⟨2, _⟩ => RollResult.ThirdPrize
  | ⟨3, _⟩ => RollResult.FourthPrize
  | ⟨4, _⟩ => RollResult.FifthPrize
  | ⟨5, _⟩ => RollResult.SixthPrize
  | ⟨6, _⟩ => RollResult.SeventhPrize
  | ⟨7, _⟩ => RollResult.EighthPrize
  | ⟨n + 8, h⟩ => absurd h (by omega)

/-- `earned_prizes.iter().filter(|&&earned| earned).count()`
(src/main.rs, line 67). -/
def earnedCount (earned : List Bool) : Nat := (earned.filter fun b => b).length

/-- `earned_prizes[usize::from(&roll_result)] = true` (src/main.rs, line 82). -/
def markEarned (earned : List Bool) (i : Nat) : List Bool := earned.set i true

/-- The initial `earned_prizes` array (src/main.rs, line 65). -/
def initEarned : List Bool :=
  [false, false, false, false, false, false, false, false]

/-- `earned_prizes.iter().enumerate().find_map(...)` (src/main.rs, lines
73–76): the index of the first `false` entry, if any. -/
def findUnearned (earned : List Bool) : Option Nat :=
  earned.enum.findSome? fun p => if !p.2 then some p.1 else none

/-- One draw of the loop body (src/main.rs, lines 68–80): random while the
result sequence is shorter than 25, otherwise the lowest unearned index
converted back through `try_into`.  `none` models the two `unwrap` panics. -/
def simStep (d : Nat → Fin 8) (earned : List Bool) (len : Nat) :
    Option RollResult :=
  if len < 25 then
    sampleRoll (d len)
  else
    match findUnearned earned with
    | none => none
    | some index => (tryFromUsize index).toOption

/-- Error outcomes of the fueled loop model: `outOfFuel` models the `while`
loop still running after the given number of iterations, `panicked` models
an `unwrap` failure inside the loop body. -/
inductive SimErr where
  | outOfFuel
  | panicked
  deriving DecidableEq

/-- The `while` loop of `run_sim` (src/main.rs, lines 67–84), with explicit
fuel bounding the number of iterations still allowed. -/
def runSimAux (d : Nat → Fin 8) :
    Nat → List Bool → List RollResult → Except SimErr (List RollResult)
  | 0, earned, results =>
    if earnedCount earned < 8 then Except.error SimErr.outOfFuel
    else Except.ok results
  | fuel + 1, earned, results =>
    if earnedCount earned < 8 then
      match simStep d earned results.length with
      | none => Except.error SimErr.panicked
      | some rollResult =>
          runSimAux d fuel (markEarned earned (usizeFrom rollResult))
            (results ++ [rollResult])
    else Except.ok results

/-- `run_sim` (src/main.rs, lines 61–87).  33 units of fuel are proved
sufficient below (`runSim_spec`): the loop runs at most 32 iterations. -/
def runSim (d : Nat → Fin 8) : Except SimErr (List RollResult) :=
  runSimAux d 33 initEarned []

/-- The earned array obtained by replaying a list of drawn outcomes from a
given starting array (the loop's single mutation, line 82, folded). -/
def earnedFrom (e : List Bool) (rs : List RollResult) : List Bool :=
  rs.foldl (fun acc r => markEarned acc (usizeFrom r)) e

/-- The earned array after a list of drawn outcomes, from the all-false
initial array. -/
def earnedAfter (rs : List RollResult) : List Bool := earnedFrom initEarned rs

/-- The trial a draw stream produces; the `error` branch is proved
unreachable (`runSim_spec`). -/
def simTrial (d : Nat → Fin 8) : List RollResult :=
  match runSim d with
  | Except.ok l => l
  | Except.error _ => []

/-- The batch of trials of `main` (src/main.rs, lines 90–94), generalized
over the hardcoded `runs = 1000000` and with one draw stream per trial
(each `run_sim()` call constructs its own `rand::rng()`). -/
def batchTrials (d2 : Nat → Nat → Fin 8) (runs : Nat) : List (List RollResult) :=
  (List.range runs).map fun t => simTrial (d2 t)

/-- The per-trial lengths of a batch. -/
def batchLengths (d2 : Nat → Nat → Fin 8) (runs : Nat) : List Nat :=
  (batchTrials d2 runs).map List.length

/-- The mean of `main` (src/main.rs, lines 95–98):
`results.iter().fold(0, |sum, sim_res| sum + sim_res.len()) as f32 / runs as f32`,
with the `f32` division modelled in `ℚ`. -/
def batchMean (d2 : Nat → Nat → Fin 8) (runs : Nat) : ℚ :=
  (((batchTrials d2 runs).foldl (fun sum tr => sum + tr.length) 0 : ℕ) : ℚ) /
    (runs : ℚ)

/-- The histogram of `main` (src/main.rs, lines 100–106): the `HashMap` is
modelled as a total function defaulting to 0; `entry(len).and_modify(+1)
.or_insert(1)` is one increment at key `len` either way. -/
def histData (lengths : List Nat) : Nat → Nat :=
  lengths.foldl (fun h len => fun k => if k = len then h k + 1 else h k)
    fun _ => 0

/-- The batch operation the spec calls `run_batch(trial_count)`: the body of
`main` (src/main.rs, lines 90–106) generalized over the hardcoded trial
count, returning the mean and histogram.  `main` returns
`Result<(), Box<dyn Error>>`; no code path in lines 90–106 produces an
error value, which this model makes explicit. -/
def runBatch (d2 : Nat → Nat → Fin 8) (runs : Nat) :
    Except String (ℚ × (Nat → Nat)) :=
  Except.ok (batchMean d2 runs, histData (batchLengths d2 runs))

/-! ### Basic facts about the index conversions -/

theorem tryFromUsize_fin (k : Fin 8) :
    tryFromUsize k.val = Except.ok (indexToRoll k) := by
  obtain ⟨v, hv⟩ := k
  interval_cases v <;> rfl

theorem sampleRoll_eq (k : Fin 8) : sampleRoll k = some (indexToRoll k) := by
  rw [sampleRoll, tryFromUsize_fin]; rfl

theorem usizeFrom_indexToRoll (k : Fin 8) : usizeFrom (indexToRoll k) = k.val := by
  obtain ⟨v, hv⟩ := k
  interval_cases v <;> rfl

theorem usizeFrom_lt (r : RollResult) : usizeFrom r < 8 := by
  cases r <;> simp [usizeFrom]

theorem usizeFrom_injective : Function.Injective usizeFrom := by
  intro a b h
  cases a <;> cases b <;> simp_all [usizeFrom]

theorem indexToRoll_injective : Function.Injective indexToRoll := by
  intro a b h
  have := usizeFrom_indexToRoll a
  rw [h, usizeFrom_indexToRoll b] at this
  exact (Fin.val_injective this).symm

theorem indexToRoll_surjective : Function.Surjective indexToRoll := by
  intro r
  cases r with
  | FirstPrize => exact ⟨0, rfl⟩
  | SecondPrize => exact ⟨1, rfl⟩
  | ThirdPrize => exact ⟨2, rfl⟩
  | FourthPrize => exact ⟨3, rfl⟩
  | FifthPrize => exact ⟨4, rfl⟩
  | SixthPrize => exact ⟨5, rfl⟩
  | SeventhPrize => exact ⟨6, rfl⟩
  | EighthPrize => exact ⟨7, rfl⟩

/-! ### Facts about the earned array -/

theorem length_markEarned (e : List Bool) (j : Nat) :
    (markEarned e j).length = e.length := by
  simp [markEarned]

theorem getD_markEarned_self (e : List Bool) (j : Nat) (hj : j < e.length) :
    (markEarned e j).getD j false = true := by
  induction e generalizing j with
  | nil => simp at hj
  | cons b t ih =>
    cases j with
    | zero => rfl
    | succ j =>
      have := ih j (by simpa using hj)
      simpa [markEarned, List.set] using this

theorem getD_markEarned_of_true (e : List Bool) (j i : Nat)
    (h : e.getD i false = true) : (markEarned e j).getD i false = true := by
  induction e generalizing i j with
  | nil => simp at h
  | cons b t ih =>
    cases j with
    | zero =>
      cases i with
      | zero => rfl
      | succ i => simpa [markEarned, List.set] using h
    | succ j =>
      cases i with
      | zero => simpa [markEarned, List.set] using h
      | succ i =>
        have := ih j i (by simpa using h)
        simpa [markEarned, List.set] using this

theorem getD_markEarned_true_elim (e : List Bool) (j i : Nat)
    (h : (markEarned e j).getD i false = true) :
    e.getD i false = true ∨ i = j := by
  induction e generalizing i j with
  | nil => simp [markEarned] at h
  | cons b t ih =>
    cases j with
    | zero =>
      cases i with
      | zero => right; rfl
      | succ i => left; simpa [markEarned, List.set] using h
    | succ j =>
      cases i with
      | zero => left; simpa [markEarned, List.set] using h
      | succ i =>
        have := ih j i (by simpa [markEarned, List.set] using h)
        rcases this with h' | h'
        · left; simpa using h'
        · right; omega

theorem earnedCount_le_length (e : List Bool) : earnedCount e ≤ e.length :=
  List.length_filter_le _ e

theorem earnedCount_nil : earnedCount [] = 0 := rfl

theorem earnedCount_cons_true (t : List Bool) :
    earnedCount (true :: t) = earnedCount t + 1 := by
  simp [earnedCount, List.filter]

theorem earnedCount_cons_false (t : List Bool) :
    earnedCount (false :: t) = earnedCount t := by
  simp [earnedCount, List.filter]

theorem earnedCount_markEarned_of_false (e : List Bool) (j : Nat)
    (hj : j < e.length) (h : e.getD j false = false) :
    earnedCount (markEarned e j) = earnedCount e + 1 := by
  induction e generalizing j with
  | nil => simp at hj
  | cons b t ih =>
    cases j with
    | zero =>
      have hb : b = false := h
      subst hb
      show earnedCount (true :: t) = earnedCount (false :: t) + 1
      rw [earnedCount_cons_true, earnedCount_cons_false]
    | succ j =>
      have hrec := ih j (by simpa using hj) (by simpa using h)
      have hset : markEarned (b :: t) (j + 1) = b :: markEarned t j := rfl
      rw [hset]
      cases b with
      | false => rw [earnedCount_cons_false, earnedCount_cons_false, hrec]
      | true => rw [earnedCount_cons_true, earnedCount_cons_true, hrec]

theorem earnedCount_markEarned_le (e : List Bool) (j : Nat) :
    earnedCount (markEarned e j) ≤ earnedCount e + 1 := by
  induction e generalizing j with
  | nil => simp [markEarned, earnedCount]
  | cons b t ih =>
    cases j with
    | zero =>
      have hset : markEarned (b :: t) 0 = true :: t := rfl
      rw [hset, earnedCount_cons_true]
      cases b with
      | false => rw [earnedCount_cons_false]
      | true => rw [earnedCount_cons_true]; omega
    | succ j =>
      have hset : markEarned (b :: t) (j + 1) = b :: markEarned t j := rfl
      rw [hset]
      have hrec := ih j
      cases b with
      | false => rw [earnedCount_cons_false, earnedCount_cons_false]; omega
      | true => rw [earnedCount_cons_true, earnedCount_cons_true]; omega

theorem earnedCount_pos (e : List Bool) (i : Nat) (h : e.getD i false = true) :
    1 ≤ earnedCount e := by
  induction e generalizing i with
  | nil => simp at h
  | cons b t ih =>
    cases i with
    | zero =>
      have hb : b = true := h
      subst hb
      rw [earnedCount_cons_true]
      omega
    | succ i =>
      have hrec := ih i (by simpa using h)
      cases b with
      | false => rw [earnedCount_cons_false]; omega
      | true => rw [earnedCount_cons_true]; omega

theorem earnedCount_eq_length_iff (e : List Bool) :
    earnedCount e = e.length ↔ ∀ i, i < e.length → e.getD i false = true := by
  induction e with
  | nil => simp [earnedCount_nil]
  | cons b t ih =>
    cases b with
    | false =>
      rw [earnedCount_cons_false]
      constructor
      · intro h
        have hle := earnedCount_le_length t
        simp at h
        exfalso
        omega
      · intro h
        have h0 := h 0 (by simp)
        simp at h0
    | true =>
      rw [earnedCount_cons_true]
      constructor
      · intro h i hi
        have ht : earnedCount t = t.length := by simp at h; omega
        cases i with
        | zero => rfl
        | succ i => exact (ih.mp ht) i (by simpa using hi)
      · intro h
        have ht : earnedCount t = t.length :=
          ih.mpr fun i hi => by simpa using h (i + 1) (by simpa using hi)
        simp [ht]

/-! ### Replaying draws through the earned array -/

theorem earnedFrom_nil (e : List Bool) : earnedFrom e [] = e := rfl

theorem earnedFrom_append (e : List Bool) (a b : List RollResult) :
    earnedFrom e (a ++ b) = earnedFrom (earnedFrom e a) b := by
  simp [earnedFrom]

theorem earnedFrom_concat (e : List Bool) (rs : List RollResult)
    (r : RollResult) :
    earnedFrom e (rs ++ [r]) = markEarned (earnedFrom e rs) (usizeFrom r) := by
  rw [earnedFrom_append]
  rfl

theorem length_earnedFrom (e : List Bool) (rs : List RollResult) :
    (earnedFrom e rs).length = e.length := by
  induction rs generalizing e with
  | nil => rfl
  | cons r t ih =>
    have : earnedFrom e (r :: t) = earnedFrom (markEarned e (usizeFrom r)) t :=
      rfl
    rw [this, ih, length_markEarned]

theorem length_earnedAfter (rs : List RollResult) :
    (earnedAfter rs).length = 8 := by
  rw [earnedAfter, length_earnedFrom]
  rfl

theorem getD_earnedFrom_of_true (e : List Bool) (rs : List RollResult)
    (i : Nat) (h : e.getD i false = true) :
    (earnedFrom e rs).getD i false = true := by
  induction rs generalizing e with
  | nil => exact h
  | cons r t ih => exact ih _ (getD_markEarned_of_true _ _ _ h)

theorem getD_earnedFrom_true_elim (e : List Bool) (rs : List RollResult)
    (i : Nat) (h : (earnedFrom e rs).getD i false = true) :
    e.getD i false = true ∨ ∃ r ∈ rs, usizeFrom r = i := by
  induction rs generalizing e with
  | nil => exact Or.inl h
  | cons r t ih =>
    have hstep : earnedFrom e (r :: t) =
        earnedFrom (markEarned e (usizeFrom r)) t := rfl
    rw [hstep] at h
    rcases ih _ h with h' | ⟨r', hr', hi⟩
    · rcases getD_markEarned_true_elim _ _ _ h' with h'' | h''
      · exact Or.inl h''
      · exact Or.inr ⟨r, List.mem_cons_self r t, h''.symm⟩
    · exact Or.inr ⟨r', List.mem_cons_of_mem _ hr', hi⟩

theorem earnedCount_earnedFrom_le (e : List Bool) (rs : List RollResult) :
    earnedCount (earnedFrom e rs) ≤ earnedCount e + rs.length := by
  induction rs generalizing e with
  | nil => simp [earnedFrom_nil]
  | cons r t ih =>
    have hstep : earnedFrom e (r :: t) =
        earnedFrom (markEarned e (usizeFrom r)) t := rfl
    rw [hstep]
    have h1 := ih (markEarned e (usizeFrom r))
    have h2 := earnedCount_markEarned_le e (usizeFrom r)
    simp only [List.length_cons]
    omega

theorem earnedCount_initEarned : earnedCount initEarned = 0 := rfl

theorem earnedCount_earnedAfter_le (rs : List RollResult) :
    earnedCount (earnedAfter rs) ≤ rs.length := by
  have := earnedCount_earnedFrom_le initEarned rs
  rw [earnedCount_initEarned] at this
  simpa using this

/-! ### The deterministic fallback: the first unearned index -/

theorem findUnearned_enumFrom (l : List Bool) :
    ∀ n : Nat, (∃ i, i < l.length ∧ l.getD i false = false) →
      ∃ k, k < l.length ∧ l.getD k false = false ∧
        (∀ j, j < k → l.getD j false = true) ∧
        (List.enumFrom n l).findSome?
          (fun p => if !p.2 then some p.1 else none) = some (n + k) := by
  induction l with
  | nil =>
    intro n h
    obtain ⟨i, hi, _⟩ := h
    simp at hi
  | cons b t ih =>
    intro n h
    cases b with
    | false =>
      refine ⟨0, by simp, rfl, by omega, ?_⟩
      simp [List.findSome?_cons]
    | true =>
      have hex : ∃ i, i < t.length ∧ t.getD i false = false := by
        obtain ⟨i, hi, hfalse⟩ := h
        cases i with
        | zero => simp at hfalse
        | succ i => exact ⟨i, by simpa using hi, by simpa using hfalse⟩
      obtain ⟨k, hk, hfalse, hleast, hfind⟩ := ih (n + 1) hex
      refine ⟨k + 1, by simpa using Nat.succ_lt_succ hk, by simpa using hfalse,
        ?_, ?_⟩
      · intro j hj
        cases j with
        | zero => rfl
        | succ j => simpa using hleast j (by omega)
      · rw [List.enumFrom_cons, List.findSome?_cons]
        simp only [Bool.not_true]
        rw [hfind, show n + 1 + k = n + (k + 1) from by omega]
        rfl

theorem exists_unset_of_count_lt (e : List Bool) (hlen : e.length = 8)
    (hc : earnedCount e < 8) : ∃ i, i < e.length ∧ e.getD i false = false := by
  by_contra hcon
  push_neg at hcon
  have hall : ∀ i, i < e.length → e.getD i false = true := by
    intro i hi
    have := hcon i hi
    cases hgd : e.getD i false with
    | false => exact absurd hgd this
    | true => rfl
  have := (earnedCount_eq_length_iff e).mpr hall
  omega

theorem findUnearned_spec (e : List Bool) (hlen : e.length = 8)
    (hc : earnedCount e < 8) :
    ∃ k, k < 8 ∧ e.getD k false = false ∧
      (∀ j, j < k → e.getD j false = true) ∧ findUnearned e = some k := by
  obtain ⟨k, hk, hfalse, hleast, hfind⟩ :=
    findUnearned_enumFrom e 0 (exists_unset_of_count_lt e hlen hc)
  refine ⟨k, by omega, hfalse, hleast, ?_⟩
  rw [findUnearned, List.enum]
  simpa using hfind

/-! ### Facts about one draw of the loop body -/

theorem simStep_lt25 (d : Nat → Fin 8) (e : List Bool) (len : Nat)
    (h : len < 25) : simStep d e len = some (indexToRoll (d len)) := by
  rw [simStep, if_pos h, sampleRoll_eq]

theorem simStep_ge25 (d : Nat → Fin 8) (e : List Bool) (len : Nat)
    (h : 25 ≤ len) (hlen : e.length = 8) (hc : earnedCount e < 8) :
    ∃ k, ∃ hk : k < 8, e.getD k false = false ∧
      (∀ j, j < k → e.getD j false = true) ∧ findUnearned e = some k ∧
      simStep d e len = some (indexToRoll ⟨k, hk⟩) := by
  obtain ⟨k, hk, hfalse, hleast, hfind⟩ := findUnearned_spec e hlen hc
  refine ⟨k, hk, hfalse, hleast, hfind, ?_⟩
  rw [simStep, if_neg (by omega), hfind]
  have := tryFromUsize_fin ⟨k, hk⟩
  simp only [this]
  rfl

/-! ### The main loop invariant -/

theorem getD_append_cons {α : Type} (a : List α) (b : α) (c : List α)
    (dflt : α) : (a ++ b :: c).getD a.length dflt = b := by
  induction a with
  | nil => rfl
  | cons x xs ih => simpa using ih

/-- Main loop lemma: from any loop state whose earned array is the replay of
the results drawn so far, with enough fuel and the late-phase progress
invariant, the loop completes, its fuel and panic branches untaken, and the
final trial is bounded and characterized draw by draw. -/
theorem runSimAux_spec (d : Nat → Fin 8) :
    ∀ (fuel : Nat) (res : List RollResult),
      33 ≤ fuel + res.length →
      (25 ≤ res.length → res.length - 24 ≤ earnedCount (earnedAfter res)) →
      ∃ l, runSimAux d fuel (earnedAfter res) res = Except.ok l ∧
        (∃ t, l = res ++ t) ∧
        8 ≤ l.length ∧ l.length ≤ 32 ∧
        earnedCount (earnedAfter l) = 8 ∧
        ∀ n, res.length ≤ n → n < l.length →
          earnedCount (earnedAfter (l.take n)) < 8 ∧
          simStep d (earnedAfter (l.take n)) n =
            some (l.getD n RollResult.FirstPrize) := by
  intro fuel
  induction fuel with
  | zero =>
    intro res h33 hinv
    exfalso
    have h1 : res.length - 24 ≤ earnedCount (earnedAfter res) :=
      hinv (by omega)
    have h2 : earnedCount (earnedAfter res) ≤ (earnedAfter res).length :=
      earnedCount_le_length _
    have h3 := length_earnedAfter res
    omega
  | succ f ih =>
    intro res h33 hinv
    by_cases hg : earnedCount (earnedAfter res) < 8
    · -- the loop runs one more iteration
      have hstep : ∃ rr, simStep d (earnedAfter res) res.length = some rr ∧
          (25 ≤ res.length →
            (earnedAfter res).getD (usizeFrom rr) false = false) := by
        by_cases hl : res.length < 25
        · exact ⟨indexToRoll (d res.length), simStep_lt25 d _ _ hl,
            fun h => absurd h (by omega)⟩
        · obtain ⟨k, hk, hfalse, hleast, hfind, hs⟩ :=
            simStep_ge25 d (earnedAfter res) res.length (by omega)
              (length_earnedAfter res) hg
          refine ⟨indexToRoll ⟨k, hk⟩, hs, fun _ => ?_⟩
          rw [usizeFrom_indexToRoll]
          exact hfalse
      obtain ⟨rr, hs, hfresh⟩ := hstep
      have hconcat : earnedAfter (res ++ [rr]) =
          markEarned (earnedAfter res) (usizeFrom rr) :=
        earnedFrom_concat initEarned res rr
      have hlen1 : (res ++ [rr]).length = res.length + 1 := by simp
      have hinv' : 25 ≤ (res ++ [rr]).length →
          (res ++ [rr]).length - 24 ≤
            earnedCount (earnedAfter (res ++ [rr])) := by
        intro h25
        rw [hlen1] at h25 ⊢
        rcases Nat.lt_or_ge res.length 25 with hlt | hge
        · have h24 : res.length = 24 := by omega
          have hbit : (earnedAfter (res ++ [rr])).getD (usizeFrom rr) false =
              true := by
            rw [hconcat]
            exact getD_markEarned_self _ _
              (by rw [length_earnedAfter]; exact usizeFrom_lt rr)
          have := earnedCount_pos _ _ hbit
          omega
        · have hfresh' := hfresh hge
          have hinc := earnedCount_markEarned_of_false (earnedAfter res)
            (usizeFrom rr)
            (by rw [length_earnedAfter]; exact usizeFrom_lt rr) hfresh'
          rw [hconcat, hinc]
          have := hinv hge
          omega
      obtain ⟨l, hrun, ⟨t, hlres⟩, hlen8, hlen32, hfinal, hpos⟩ :=
        ih (res ++ [rr]) (by rw [hlen1]; omega) hinv'
      have hlres' : l = res ++ rr :: t := by rw [hlres]; simp
      refine ⟨l, ?_, ⟨rr :: t, hlres'⟩, hlen8, hlen32, hfinal, ?_⟩
      · rw [show runSimAux d (f + 1) (earnedAfter res) res =
            runSimAux d f (markEarned (earnedAfter res) (usizeFrom rr))
              (res ++ [rr]) from by
          simp only [runSimAux]
          rw [if_pos hg, hs]]
        rw [← hconcat]
        exact hrun
      · intro n hn1 hn2
        rcases Nat.lt_or_ge n (res.length + 1) with hlt | hge
        · have hn : n = res.length := by omega
          subst hn
          have htake : l.take res.length = res := by
            rw [hlres']
            exact List.take_left res (rr :: t)
          have hget : l.getD res.length RollResult.FirstPrize = rr := by
            rw [hlres']
            exact getD_append_cons res rr t _
          rw [htake, hget]
          exact ⟨hg, hs⟩
        · exact hpos n (by rw [hlen1]; omega) hn2
    · -- the loop guard fails: all 8 prizes earned, return the results
      have hle := earnedCount_le_length (earnedAfter res)
      have h8 := length_earnedAfter res
      have hcount : earnedCount (earnedAfter res) = 8 := by omega
      have hres8 : 8 ≤ res.length := by
        have := earnedCount_earnedAfter_le res
        omega
      have hres32 : res.length ≤ 32 := by
        rcases Nat.lt_or_ge res.length 25 with hlt | hge
        · omega
        · have := hinv hge
          omega
      refine ⟨res, ?_, ⟨[], by simp⟩, hres8, hres32, hcount, ?_⟩
      · simp only [runSimAux]
        rw [if_neg hg]
      · intro n hn1 hn2
        exact absurd hn2 (by omega)

/-- Specification of `run_sim` for an arbitrary draw stream: the loop
completes (no fuel exhaustion, no panic), the trial length is in `[8, 32]`,
all 8 prizes end up earned, and every position of the trial is the outcome
`simStep` produces from the replayed earned state at that position. -/
theorem runSim_spec (d : Nat → Fin 8) :
    ∃ l, runSim d = Except.ok l ∧ 8 ≤ l.length ∧ l.length ≤ 32 ∧
      earnedCount (earnedAfter l) = 8 ∧
      ∀ n, n < l.length →
        earnedCount (earnedAfter (l.take n)) < 8 ∧
        simStep d (earnedAfter (l.take n)) n =
          some (l.getD n RollResult.FirstPrize) := by
  obtain ⟨l, hrun, _, hlen8, hlen32, hfinal, hpos⟩ :=
    runSimAux_spec d 33 [] (by simp) (by intro h; simp at h)
  exact ⟨l, hrun, hlen8, hlen32, hfinal, fun n hn => hpos n (by simp) hn⟩

/-! ### Derived facts used by the claims -/

theorem initEarned_getD (i : Nat) : initEarned.getD i false = false := by
  rcases i with _|_|_|_|_|_|_|_|i <;> rfl

theorem all_outcomes_of_count8 (l : List RollResult)
    (h : earnedCount (earnedAfter l) = 8) : ∀ r : RollResult, r ∈ l := by
  intro r
  have hall : ∀ i, i < (earnedAfter l).length →
      (earnedAfter l).getD i false = true :=
    (earnedCount_eq_length_iff _).mp (by rw [length_earnedAfter]; exact h)
  have hbit : (earnedAfter l).getD (usizeFrom r) false = true :=
    hall _ (by rw [length_earnedAfter]; exact usizeFrom_lt r)
  rcases getD_earnedFrom_true_elim initEarned l (usizeFrom r) hbit with
    h' | ⟨r', hr', hi⟩
  · rw [initEarned_getD] at h'
    exact absurd h' (by simp)
  · rwa [← usizeFrom_injective hi]

theorem take_succ_getD {α : Type} (l : List α) (n : Nat) (hn : n < l.length)
    (dflt : α) : l.take (n + 1) = l.take n ++ [l.getD n dflt] := by
  rw [List.take_succ, List.getElem?_eq_getElem hn]
  rw [List.getD_eq_getElem?_getD, List.getElem?_eq_getElem hn]
  rfl

theorem simTrial_eq (d : Nat → Fin 8) (l : List RollResult)
    (h : runSim d = Except.ok l) : simTrial d = l := by
  rw [simTrial, h]

theorem histFold_eq (L : List Nat) :
    ∀ (acc : Nat → Nat) (k : Nat),
      (L.foldl (fun h len => fun k => if k = len then h k + 1 else h k) acc) k
        = acc k + L.count k := by
  induction L with
  | nil => intro acc k; simp
  | cons a t ih =>
    intro acc k
    rw [List.foldl_cons, ih, List.count_cons]
    by_cases hk : k = a
    · subst hk
      simp
      omega
    · have hbeq : (a == k) = false := by
        simp only [beq_eq_false_iff_ne]
        exact fun hak => hk hak.symm
      simp [hk, hbeq]

theorem histData_eq_count (L : List Nat) (k : Nat) :
    histData L k = L.count k := by
  rw [histData, histFold_eq]
  omega

/-! ### The claims about the Trial Simulator -/

/-- C1: every trial `run_sim` returns, for every possible sequence of random
index draws, has length in `[8, 32]` and contains every one of the 8
outcomes at least once; consequently every key of the histogram built from
a batch of such trials lies in `[8, 32]`. -/
theorem trial_length_and_coverage :
    (∀ d : Nat → Fin 8, ∃ l, runSim d = Except.ok l ∧
      8 ≤ l.length ∧ l.length ≤ 32 ∧ ∀ r : RollResult, r ∈ l) ∧
    ∀ (d2 : Nat → Nat → Fin 8) (n k : Nat),
      histData (batchLengths d2 n) k ≠ 0 → 8 ≤ k ∧ k ≤ 32 := by
  constructor
  · intro d
    obtain ⟨l, hrun, h8, h32, hfinal, _⟩ := runSim_spec d
    exact ⟨l, hrun, h8, h32, all_outcomes_of_count8 l hfinal⟩
  · intro d2 n k hk
    rw [histData_eq_count] at hk
    have hmem : k ∈ batchLengths d2 n := by
      by_contra hmem
      exact hk (List.count_eq_zero.mpr hmem)
    rw [batchLengths] at hmem
    obtain ⟨tr, htr, hlen⟩ := List.mem_map.mp hmem
    rw [batchTrials] at htr
    obtain ⟨t, _, htrial⟩ := List.mem_map.mp htr
    obtain ⟨l, hrun, h8, h32, _, _⟩ := runSim_spec (d2 t)
    have : tr = l := by rw [← htrial, simTrial_eq _ _ hrun]
    subst this
    subst hlen
    exact ⟨h8, h32⟩

/-- C5: `run_sim` is total: for every possible sequence of random index
draws the loop completes (within 33 iterations of fuel — it never exhausts
the fuel nor panics), and each trial makes at most 32 draws. -/
theorem runSim_total (d : Nat → Fin 8) :
    ∃ l, runSim d = Except.ok l ∧ l.length ≤ 32 := by
  obtain ⟨l, hrun, _, h32, _, _⟩ := runSim_spec d
  exact ⟨l, hrun, h32⟩

/-- C2: while the sequence length is below 25 the drawn outcome is exactly
the random index the source produced, converted bijectively onto the 8
outcomes (so the draw is uniform over all 8 possibilities whenever the
source is), and does not depend on the earned set; once the length is at
least 25 the draw does not depend on the random source, and is the outcome
at the lowest index not yet earned. -/
theorem sampling_policy (d d' : Nat → Fin 8) (e e' : List Bool) (len : Nat) :
    (len < 25 →
      simStep d e len = some (indexToRoll (d len)) ∧
      simStep d e len = simStep d e' len ∧
      Function.Bijective indexToRoll) ∧
    (25 ≤ len → e.length = 8 → earnedCount e < 8 →
      simStep d e len = simStep d' e len ∧
      ∃ k, ∃ hk : k < 8, e.getD k false = false ∧
        (∀ j, j < k → e.getD j false = true) ∧
        simStep d e len = some (indexToRoll ⟨k, hk⟩)) := by
  constructor
  · intro hl
    exact ⟨simStep_lt25 d e len hl,
      by rw [simStep_lt25 d e len hl, simStep_lt25 d e' len hl],
      indexToRoll_injective, indexToRoll_surjective⟩
  · intro h25 hlen hc
    constructor
    · rw [simStep, simStep, if_neg (by omega), if_neg (by omega)]
    · obtain ⟨k, hk, hfalse, hleast, _, hs⟩ := simStep_ge25 d e len h25 hlen hc
      exact ⟨k, hk, hfalse, hleast, hs⟩

/-- C3: for every trial, once the sequence length reaches 25 every
subsequent draw hits an outcome whose bit is not yet set and increases the
number of set bits by exactly one. -/
theorem det_phase_progress (d : Nat → Fin 8) (l : List RollResult)
    (h : runSim d = Except.ok l) (n : Nat) (h25 : 25 ≤ n)
    (hn : n < l.length) :
    (earnedAfter (l.take n)).getD
      (usizeFrom (l.getD n RollResult.FirstPrize)) false = false ∧
    earnedCount (earnedAfter (l.take (n + 1))) =
      earnedCount (earnedAfter (l.take n)) + 1 := by
  obtain ⟨l₀, hrun, _, _, _, hpos⟩ := runSim_spec d
  rw [h] at hrun
  injection hrun with hl
  subst hl
  obtain ⟨hc, hstep⟩ := hpos n hn
  obtain ⟨k, hk, hfalse, _, _, hs⟩ :=
    simStep_ge25 d (earnedAfter (l.take n)) n h25 (length_earnedAfter _) hc
  rw [hstep] at hs
  have hroll : l.getD n RollResult.FirstPrize = indexToRoll ⟨k, hk⟩ := by
    injection hs
  have husize : usizeFrom (l.getD n RollResult.FirstPrize) = k := by
    rw [hroll, usizeFrom_indexToRoll]
  constructor
  · rw [husize]
    exact hfalse
  · have hconcat2 : earnedAfter (l.take n ++ [l.getD n RollResult.FirstPrize]) =
        markEarned (earnedAfter (l.take n))
          (usizeFrom (l.getD n RollResult.FirstPrize)) :=
      earnedFrom_concat initEarned _ _
    rw [take_succ_getD l n hn RollResult.FirstPrize, hconcat2, husize]
    exact earnedCount_markEarned_of_false _ _
      (by rw [length_earnedAfter]; omega) hfalse

/-- C4: along every trial the earned set is monotone — a bit set after `m`
draws is still set after any `n ≥ m` draws — and the loop continues exactly
while some of the 8 bits is unset: at every position before the end not all
8 bits are set, and at the end all 8 are. -/
theorem earned_monotone_and_stop (d : Nat → Fin 8) (l : List RollResult)
    (h : runSim d = Except.ok l) :
    (∀ m n i, m ≤ n →
      (earnedAfter (l.take m)).getD i false = true →
      (earnedAfter (l.take n)).getD i false = true) ∧
    (∀ n, n < l.length →
      ¬ ∀ i, i < 8 → (earnedAfter (l.take n)).getD i false = true) ∧
    (∀ i, i < 8 → (earnedAfter l).getD i false = true) := by
  obtain ⟨l₀, hrun, _, _, hfinal, hpos⟩ := runSim_spec d
  rw [h] at hrun
  injection hrun with hl
  subst hl
  refine ⟨?_, ?_, ?_⟩
  · intro m n i hmn hbit
    have hsplit : l.take n = l.take m ++ (l.take n).drop m := by
      conv_lhs => rw [← List.take_append_drop m (l.take n)]
      rw [List.take_take, Nat.min_eq_left hmn]
    rw [hsplit, earnedAfter, earnedFrom_append]
    exact getD_earnedFrom_of_true _ _ _ hbit
  · intro n hn hall
    obtain ⟨hc, _⟩ := hpos n hn
    have : earnedCount (earnedAfter (l.take n)) =
        (earnedAfter (l.take n)).length :=
      (earnedCount_eq_length_iff _).mpr
        (by rw [length_earnedAfter]; exact hall)
    rw [length_earnedAfter] at this
    omega
  · exact fun i hi => (earnedCount_eq_length_iff _).mp
      (by rw [length_earnedAfter]; exact hfinal) i
      (by rw [length_earnedAfter]; exact hi)

/-- C6: whenever the loop condition holds (some bit unset) the deterministic
fallback finds a lowest unset index, that index is below 8 so the
index-to-outcome conversion succeeds, and hence neither `unwrap` in the
fallback branch can fail: the step never panics in the late phase. -/
theorem fallback_safe (e : List Bool) (hlen : e.length = 8)
    (hc : earnedCount e < 8) :
    ∃ k, findUnearned e = some k ∧ k < 8 ∧
      (∃ r, tryFromUsize k = Except.ok r) ∧
      ∀ (d : Nat → Fin 8) (len : Nat), 25 ≤ len → simStep d e len ≠ none := by
  obtain ⟨k, hk, _, _, hfind⟩ := findUnearned_spec e hlen hc
  refine ⟨k, hfind, hk, ⟨indexToRoll ⟨k, hk⟩, tryFromUsize_fin ⟨k, hk⟩⟩, ?_⟩
  intro d len h25
  rw [simStep, if_neg (by omega), hfind]
  have hok : tryFromUsize k = Except.ok (indexToRoll ⟨k, hk⟩) :=
    tryFromUsize_fin ⟨k, hk⟩
  simp [hok, Except.toOption]

/-- Draw streams that agree on the first 25 indices drive the loop
identically from any state: the stream is only consulted while the result
sequence is shorter than 25. -/
theorem runSimAux_congr (d1 d2 : Nat → Fin 8)
    (h : ∀ i, i < 25 → d1 i = d2 i) :
    ∀ (fuel : Nat) (e : List Bool) (res : List RollResult),
      runSimAux d1 fuel e res = runSimAux d2 fuel e res := by
  intro fuel
  induction fuel with
  | zero => intro e res; rfl
  | succ f ih =>
    intro e res
    simp only [runSimAux]
    by_cases hg : earnedCount e < 8
    · rw [if_pos hg, if_pos hg]
      have hstep : simStep d1 e res.length = simStep d2 e res.length := by
        rw [simStep, simStep]
        by_cases hl : res.length < 25
        · rw [if_pos hl, if_pos hl, h _ hl]
        · rw [if_neg hl, if_neg hl]
      rw [hstep]
      cases simStep d2 e res.length with
      | none => rfl
      | some rr => exact ih _ _
    · rw [if_neg hg, if_neg hg]

/-- C9: the trial operation is deterministic in its random source — two runs
over the same sequence of index draws (here: streams agreeing on every index
that can be consulted) return the identical trial. -/
theorem runSim_deterministic (d1 d2 : Nat → Fin 8)
    (h : ∀ i, i < 25 → d1 i = d2 i) : runSim d1 = runSim d2 :=
  runSimAux_congr d1 d2 h 33 initEarned []

/-! ### Batch aggregation -/

theorem foldl_len_eq_sum (ts : List (List RollResult)) :
    ∀ acc : Nat, ts.foldl (fun sum tr => sum + tr.length) acc
      = acc + (ts.map List.length).sum := by
  induction ts with
  | nil => intro acc; simp
  | cons a t ih =>
    intro acc
    rw [List.foldl_cons, ih]
    simp only [List.map_cons, List.sum_cons]
    omega

theorem length_batchLengths (d2 : Nat → Nat → Fin 8) (n : Nat) :
    (batchLengths d2 n).length = n := by
  simp [batchLengths, batchTrials]

theorem sum_count_toFinset (L : List Nat) :
    Finset.sum L.toFinset (fun k => L.count k) = L.length := by
  simp

/-- C7 (code behaviour at the claimed failing input): the batch operation,
i.e. `main`'s body generalized over the hardcoded trial count, performs no
validation: invoked with trial count 0 it succeeds, returning the mean
`0 / 0` — the division is attempted with divisor 0 (`NaN` in the source's
`f32`) — and it never returns an error value of any kind. -/
theorem runBatch_zero_no_error (d2 : Nat → Nat → Fin 8) :
    runBatch d2 0 = Except.ok ((0 : ℚ) / (0 : ℚ), histData []) ∧
    ∀ e : String, runBatch d2 0 ≠ Except.error e := by
  constructor
  · rw [runBatch]
    have h1 : batchMean d2 0 = (0 : ℚ) / (0 : ℚ) := by
      rw [batchMean]
      norm_num [batchTrials]
    have h2 : batchLengths d2 0 = [] := by
      simp [batchLengths, batchTrials]
    rw [h1, h2]
  · intro e
    rw [runBatch]
    exact fun h => Except.noConfusion h

/-- C8: for every batch of `n ≥ 1` trials the aggregation agrees exactly
with a direct recomputation from the per-trial lengths it produced: each
histogram entry equals the number of trials of that length, the histogram
counts (over the lengths that occur) sum to `n`, and the mean is the sum of
the lengths divided by `n`. -/
theorem batch_aggregation (d2 : Nat → Nat → Fin 8) (n : Nat) (_hn : 1 ≤ n) :
    (∀ k, histData (batchLengths d2 n) k = (batchLengths d2 n).count k) ∧
    Finset.sum (batchLengths d2 n).toFinset
      (fun k => histData (batchLengths d2 n) k) = n ∧
    batchMean d2 n = ((batchLengths d2 n).sum : ℚ) / (n : ℚ) := by
  refine ⟨fun k => histData_eq_count _ k, ?_, ?_⟩
  · have h1 : Finset.sum (batchLengths d2 n).toFinset
        (fun k => histData (batchLengths d2 n) k)
        = Finset.sum (batchLengths d2 n).toFinset
          (fun k => (batchLengths d2 n).count k) :=
      Finset.sum_congr rfl fun k _ => histData_eq_count _ k
    rw [h1, sum_count_toFinset, length_batchLengths]
  · rw [batchMean, foldl_len_eq_sum]
    rw [show (batchTrials d2 n).map List.length = batchLengths d2 n from rfl]
    rw [Nat.zero_add]

/-- C10: the outcome/index conversions round-trip — `try_from` succeeds on
every index below 8 and converting the result back yields the index — and
`try_from` returns the error on every index 8 or above. -/
theorem tryFrom_roundtrip (i : Nat) :
    (i < 8 → ∃ r, tryFromUsize i = Except.ok r ∧ usizeFrom r = i) ∧
    (8 ≤ i → tryFromUsize i =
      Except.error "Can only convert 0..=7 to RollResult") := by
  constructor
  · intro h
    interval_cases i
    · exact ⟨RollResult.FirstPrize, rfl, rfl⟩
    · exact ⟨RollResult.SecondPrize, rfl, rfl⟩
    · exact ⟨RollResult.ThirdPrize, rfl, rfl⟩
    · exact ⟨RollResult.FourthPrize, rfl, rfl⟩
    · exact ⟨RollResult.FifthPrize, rfl, rfl⟩
    · exact ⟨RollResult.SixthPrize, rfl, rfl⟩
    · exact ⟨RollResult.SeventhPrize, rfl, rfl⟩
    · exact ⟨RollResult.EighthPrize, rfl, rfl⟩
  · intro h
    obtain ⟨m, rfl⟩ : ∃ m, i = m + 8 := ⟨i - 8, by omega⟩
    rfl

/-! ### Concrete witnesses -/

/-- Witness for C1's histogram-key part, at the constant-0 draw stream, one
trial, key 32. -/
theorem trial_length_and_coverage_witness :
    histData (batchLengths (fun _ _ => (0 : Fin 8)) 1) 32 ≠ 0 ∧
    8 ≤ 32 ∧ 32 ≤ 32 :=
  ⟨by decide,
    trial_length_and_coverage.2 (fun _ _ => (0 : Fin 8)) 1 32 (by decide)⟩

/-- Witness for C2: a random-phase draw at length 3 and a late-phase draw at
length 30 with a half-earned array, on concrete streams. -/
theorem sampling_policy_witness :
    simStep (fun _ => (0 : Fin 8))
      [false, false, false, false, false, false, false, false] 3
      = some (indexToRoll 0) ∧
    simStep (fun _ => (0 : Fin 8))
      [true, false, true, false, true, false, true, false] 30
      = simStep (fun _ => (7 : Fin 8))
        [true, false, true, false, true, false, true, false] 30 :=
  ⟨((sampling_policy (fun _ => 0) (fun _ => 0)
      [false, false, false, false, false, false, false, false]
      [true, true, true, true, true, true, true, true] 3).1 (by decide)).1,
   ((sampling_policy (fun _ => 0) (fun _ => 7)
      [true, false, true, false, true, false, true, false]
      [true, true, true, true, true, true, true, true] 30).2
      (by decide) (by decide) (by decide)).1⟩

/-- Witness for C3 at the constant-0 draw stream and position 25 of its
trial. -/
theorem det_phase_progress_witness :
    (earnedAfter ((List.replicate 25 RollResult.FirstPrize ++
        [RollResult.SecondPrize, RollResult.ThirdPrize, RollResult.FourthPrize,
         RollResult.FifthPrize, RollResult.SixthPrize, RollResult.SeventhPrize,
         RollResult.EighthPrize]).take 25)).getD
      (usizeFrom ((List.replicate 25 RollResult.FirstPrize ++
        [RollResult.SecondPrize, RollResult.ThirdPrize, RollResult.FourthPrize,
         RollResult.FifthPrize, RollResult.SixthPrize, RollResult.SeventhPrize,
         RollResult.EighthPrize]).getD 25 RollResult.FirstPrize)) false
      = false ∧
    earnedCount (earnedAfter ((List.replicate 25 RollResult.FirstPrize ++
        [RollResult.SecondPrize, RollResult.ThirdPrize, RollResult.FourthPrize,
         RollResult.FifthPrize, RollResult.SixthPrize, RollResult.SeventhPrize,
         RollResult.EighthPrize]).take 26))
      = earnedCount (earnedAfter ((List.replicate 25 RollResult.FirstPrize ++
        [RollResult.SecondPrize, RollResult.ThirdPrize, RollResult.FourthPrize,
         RollResult.FifthPrize, RollResult.SixthPrize, RollResult.SeventhPrize,
         RollResult.EighthPrize]).take 25)) + 1 :=
  det_phase_progress (fun _ => (0 : Fin 8))
    (List.replicate 25 RollResult.FirstPrize ++
      [RollResult.SecondPrize, RollResult.ThirdPrize, RollResult.FourthPrize,
       RollResult.FifthPrize, RollResult.SixthPrize, RollResult.SeventhPrize,
       RollResult.EighthPrize])
    (by rfl) 25 (by decide) (by decide)

/-- Witness for C4 at the constant-0 draw stream: bit 0 of the final earned
array is set. -/
theorem earned_monotone_and_stop_witness :
    (earnedAfter (List.replicate 25 RollResult.FirstPrize ++
        [RollResult.SecondPrize, RollResult.ThirdPrize, RollResult.FourthPrize,
         RollResult.FifthPrize, RollResult.SixthPrize, RollResult.SeventhPrize,
         RollResult.EighthPrize])).getD 0 false = true :=
  (earned_monotone_and_stop (fun _ => (0 : Fin 8))
    (List.replicate 25 RollResult.FirstPrize ++
      [RollResult.SecondPrize, RollResult.ThirdPrize, RollResult.FourthPrize,
       RollResult.FifthPrize, RollResult.SixthPrize, RollResult.SeventhPrize,
       RollResult.EighthPrize])
    (by rfl)).2.2 0 (by decide)

/-- Witness for C6 at a concrete earned array with three set bits. -/
theorem fallback_safe_witness :
    ∃ k, findUnearned [true, true, true, false, false, false, false, false]
      = some k ∧ k < 8 ∧
      (∃ r, tryFromUsize k = Except.ok r) ∧
      ∀ (d : Nat → Fin 8) (len : Nat), 25 ≤ len →
        simStep d [true, true, true, false, false, false, false, false] len
          ≠ none :=
  fallback_safe [true, true, true, false, false, false, false, false]
    (by decide) (by decide)

/-- Witness for C8 at a one-trial batch on the constant-1 draw stream. -/
theorem batch_aggregation_witness :
    (∀ k, histData (batchLengths (fun _ _ => (1 : Fin 8)) 1) k
        = (batchLengths (fun _ _ => (1 : Fin 8)) 1).count k) ∧
    Finset.sum (batchLengths (fun _ _ => (1 : Fin 8)) 1).toFinset
      (fun k => histData (batchLengths (fun _ _ => (1 : Fin 8)) 1) k) = 1 ∧
    batchMean (fun _ _ => (1 : Fin 8)) 1
      = ((batchLengths (fun _ _ => (1 : Fin 8)) 1).sum : ℚ) /
        ((1 : Nat) : ℚ) :=
  batch_aggregation (fun _ _ => (1 : Fin 8)) 1 (by decide)

/-- Witness for C9: two concrete streams agreeing on indices below 25
produce identical trials. -/
theorem runSim_deterministic_witness :
    runSim (fun _ => (0 : Fin 8))
      = runSim (fun i => if i < 25 then (0 : Fin 8) else 7) :=
  runSim_deterministic (fun _ => (0 : Fin 8))
    (fun i => if i < 25 then (0 : Fin 8) else 7)
    (fun i hi => by simp only []; rw [if_pos hi])

/-- Witness for C10 at in-range index 5 and out-of-range index 9. -/
theorem tryFrom_roundtrip_witness :
    (∃ r, tryFromUsize 5 = Except.ok r ∧ usizeFrom r = 5) ∧
    tryFromUsize 9 = Except.error "Can only convert 0..=7 to RollResult" :=
  ⟨(tryFrom_roundtrip 5).1 (by decide), (tryFrom_roundtrip 9).2 (by decide)⟩
